import Mathlib

/- Shallow embedding of the audiobook-repack tool (src/main.go).

   Conventions of the embedding:
   - The host is Linux, so the path separator is '/'; Go's int is 64-bit.
   - Go strings are modelled as lists of runes (Char).  Go compares strings
     byte-wise over their UTF-8 encoding, and byte-wise order of UTF-8
     encodings coincides with rune-wise lexicographic order, so the
     rune-level model is faithful.
   - Loops that consume their input by a data-dependent amount per iteration
     are written with an explicit fuel argument so that every definition is
     a computable structural recursion; the top-level wrappers supply fuel
     that is proved (or evident) to be sufficient, and fuel-irrelevance
     lemmas are proved where universal statements need them. -/

abbrev Str := List Char

/-- Rune list of a Lean string literal. -/
def strL (s : String) : Str := s.data

/-- Go's built-in string comparison s < t (lexicographic). -/
def strLt : Str → Str → Bool
  | [], [] => false
  | [], _ :: _ => true
  | _ :: _, [] => false
  | a :: as, b :: bs => if a < b then true else if b < a then false else strLt as bs

/-- The ranges of the Unicode decimal-digit category Nd (Unicode 15.0),
as used by Go's unicode.IsDigit. -/
def ndRanges : List (Nat × Nat) :=
  [(0x30, 0x39), (0x660, 0x669), (0x6f0, 0x6f9), (0x7c0, 0x7c9),
   (0x966, 0x96f), (0x9e6, 0x9ef), (0xa66, 0xa6f), (0xae6, 0xaef),
   (0xb66, 0xb6f), (0xbe6, 0xbef), (0xc66, 0xc6f), (0xce6, 0xcef),
   (0xd66, 0xd6f), (0xde6, 0xdef), (0xe50, 0xe59), (0xed0, 0xed9),
   (0xf20, 0xf29), (0x1040, 0x1049), (0x1090, 0x1099), (0x17e0, 0x17e9),
   (0x1810, 0x1819), (0x1946, 0x194f), (0x19d0, 0x19d9), (0x1a80, 0x1a89),
   (0x1a90, 0x1a99), (0x1b50, 0x1b59), (0x1bb0, 0x1bb9), (0x1c40, 0x1c49),
   (0x1c50, 0x1c59), (0xa620, 0xa629), (0xa8d0, 0xa8d9), (0xa900, 0xa909),
   (0xa9d0, 0xa9d9), (0xa9f0, 0xa9f9), (0xaa50, 0xaa59), (0xabf0, 0xabf9),
   (0xff10, 0xff19), (0x104a0, 0x104a9), (0x10d30, 0x10d39),
   (0x11066, 0x1106f), (0x110f0, 0x110f9), (0x11136, 0x1113f),
   (0x111d0, 0x111d9), (0x112f0, 0x112f9), (0x11450, 0x11459),
   (0x114d0, 0x114d9), (0x11650, 0x11659), (0x116c0, 0x116c9),
   (0x11730, 0x11739), (0x118e0, 0x118e9), (0x11950, 0x11959),
   (0x11c50, 0x11c59), (0x11d50, 0x11d59), (0x11da0, 0x11da9),
   (0x11f50, 0x11f59), (0x16a60, 0x16a69), (0x16ac0, 0x16ac9),
   (0x16b50, 0x16b59), (0x1d7ce, 0x1d7ff), (0x1e140, 0x1e149),
   (0x1e2f0, 0x1e2f9), (0x1e4f0, 0x1e4f9), (0x1e950, 0x1e959),
   (0x1fbf0, 0x1fbf9)]

/-- unicode.IsDigit: membership in the decimal-digit category Nd. -/
def isGoDigit (c : Char) : Bool :=
  ndRanges.any fun r => r.1 ≤ c.toNat && c.toNat ≤ r.2

/-- ASCII decimal digit, the only digits strconv.Atoi accepts. -/
def isAsciiDigit (c : Char) : Bool := '0' ≤ c && c ≤ '9'

/-- Numeric value of an ASCII digit string. -/
def digitsVal (s : Str) : Nat := s.foldl (fun acc c => 10 * acc + (c.toNat - '0'.toNat)) 0

/-- Largest value of Go's 64-bit int. -/
def goMaxInt : Nat := 9223372036854775807

/-- strconv.Atoi restricted to the inputs naturalLess feeds it: a nonempty
run of Unicode digits (never signed).  It succeeds iff all digits are ASCII
and the value fits in a 64-bit int; otherwise Atoi reports a syntax or
range error (none here), which main.go turns into a panic. -/
def goAtoi (s : Str) : Option Nat :=
  if s = [] then none
  else if s.all isAsciiDigit then
    if digitsVal s ≤ goMaxInt then some (digitsVal s) else none
  else none

/-- The loop body of naturalLess (src/main.go lines 244-300), with fuel.
Each iteration consumes at least one character of the first string, so fuel
(length of first string + 1) is never exhausted; none models the panic on
an Atoi failure (the fuel-0 branch is unreachable at sufficient fuel). -/
def naturalLessFuel : Nat → Str → Str → Option Bool
  | 0, _, _ => none
  | fuel+1, strA, strB =>
    let preA := strA.takeWhile fun c => !isGoDigit c
    let restA := strA.dropWhile fun c => !isGoDigit c
    let preB := strB.takeWhile fun c => !isGoDigit c
    let restB := strB.dropWhile fun c => !isGoDigit c
    if restA = [] then
      if restB = [] then some (strLt strA strB)
      else some false
    else if restB = [] then some true
    else if preA ≠ preB then some (strLt preA preB)
    else
      let digitsA := restA.takeWhile isGoDigit
      let tailA := restA.dropWhile isGoDigit
      let digitsB := restB.takeWhile isGoDigit
      let tailB := restB.dropWhile isGoDigit
      match goAtoi digitsA, goAtoi digitsB with
      | some valA, some valB =>
        if valA ≠ valB then some (decide (valA < valB))
        else if digitsA.length ≠ digitsB.length then
          some (decide (digitsA.length < digitsB.length))
        else if tailA = [] ∨ tailB = [] then some true
        else naturalLessFuel fuel tailA tailB
      | _, _ => none

/-- naturalLess from src/main.go: some b is a returned boolean, none is the
panic raised when strconv.Atoi fails on a digit run. -/
def naturalLess (a b : Str) : Option Bool := naturalLessFuel (a.length + 1) a b

/-- True iff the last character of the string is a Unicode digit. -/
def endsInDigit (s : Str) : Bool :=
  match s.getLast? with
  | some c => isGoDigit c
  | none => false

/-- Fuelled check that every maximal digit run of the string parses via
goAtoi (the condition under which naturalLess never panics). -/
def digitRunsParseF : Nat → Str → Bool
  | 0, _ => false
  | fuel+1, s =>
    match s.dropWhile (fun c => !isGoDigit c) with
    | [] => true
    | c :: t =>
      (goAtoi ((c :: t).takeWhile isGoDigit)).isSome &&
        digitRunsParseF fuel ((c :: t).dropWhile isGoDigit)

/-- Every maximal digit run of the string parses as a 64-bit int. -/
def digitRunsParse (s : Str) : Bool := digitRunsParseF (s.length + 1) s

/-- A digit run of twenty nines: its value exceeds the 64-bit int range,
so strconv.Atoi fails on it and naturalLess panics. -/
def nines20 : Str := List.replicate 20 '9'

/-- A string ending in a digit whose digit run does not parse. -/
def bNines : Str := 'b' :: List.replicate 20 '9'

/- ---------------- The glob matcher: path/filepath.Match ---------------- -/

/-- Body scan of filepath.scanChunk: split the pattern (leading stars
already removed) into the chunk up to the next top-level star and the rest;
a backslash escapes the following character, and a star inside [ ] brackets
is not a chunk boundary. -/
def scanBody : Bool → Str → (Str × Str)
  | _, [] => ([], [])
  | inrange, c :: cs =>
    if c = '\\' then
      match cs with
      | [] => ([c], [])
      | d :: ds =>
        let (ch, r) := scanBody inrange ds
        (c :: d :: ch, r)
    else if c = '[' then
      let (ch, r) := scanBody true cs
      (c :: ch, r)
    else if c = ']' then
      let (ch, r) := scanBody false cs
      (c :: ch, r)
    else if c = '*' && !inrange then ([], c :: cs)
    else
      let (ch, r) := scanBody inrange cs
      (c :: ch, r)

/-- filepath.scanChunk: strip leading stars, then split off one chunk. -/
def scanChunk (p : Str) : Bool × Str × Str :=
  let star : Bool := match p with
    | '*' :: _ => true
    | _ => false
  let p1 := p.dropWhile fun c => c = '*'
  let (chunk, r) := scanBody false p1
  (star, chunk, r)

/-- filepath.getEsc: read one (possibly escaped) character-range endpoint
from a chunk inside [ ]; errors are ErrBadPattern. -/
def getEsc (chunk : Str) : Except Unit (Char × Str) :=
  match chunk with
  | [] => .error ()
  | c :: cs =>
    if c = '-' ∨ c = ']' then .error ()
    else
      match (if c = '\\' then cs else c :: cs) with
      | [] => .error ()
      | r :: rest => if rest = [] then .error () else .ok (r, rest)

/-- The range-parsing loop of filepath.matchChunk's [ ] case: given the
rune r consumed from the name, the accumulated match flag, and whether at
least one range has been parsed, consume ranges until the closing bracket.
Returns the match flag and the chunk after the bracket.  Fuel
(chunk length + 1) is sufficient since every step consumes a character. -/
def matchRanges : Nat → Char → Bool → Bool → Str → Except Unit (Bool × Str)
  | 0, _, _, _, _ => .ok (false, [])
  | fuel+1, r, matched, started, chunk =>
    match chunk, started with
    | ']' :: rest, true => .ok (matched, rest)
    | _, _ =>
      match getEsc chunk with
      | .error e => .error e
      | .ok (lo, ch1) =>
        match ch1 with
        | '-' :: ch2 =>
          match getEsc ch2 with
          | .error e => .error e
          | .ok (hi, ch3) => matchRanges fuel r (matched || (lo ≤ r && r ≤ hi)) true ch3
        | _ => matchRanges fuel r (matched || (lo ≤ r && r ≤ lo)) true ch1

/-- filepath.matchChunk with its failed flag explicit: matches a chunk
against the head of s; after a mismatch it keeps scanning the chunk so that
a malformed chunk is still reported.  ok (some t) is a match with rest t,
ok none a well-formed non-match, error () is ErrBadPattern.  Fuel
(chunk length + 1) is sufficient. -/
def matchChunkF : Nat → Bool → Str → Str → Except Unit (Option Str)
  | 0, _, _, _ => .ok none
  | fuel+1, failed0, chunk, s =>
    match chunk with
    | [] => if failed0 then .ok none else .ok (some s)
    | c :: cs =>
      let failed := failed0 || s.isEmpty
      if c = '[' then
        let rs : Char × Str :=
          if failed then (Char.ofNat 0, s)
          else
            match s with
            | [] => (Char.ofNat 0, [])
            | a :: as => (a, as)
        let ncs : Bool × Str :=
          match cs with
          | '^' :: t => (true, t)
          | _ => (false, cs)
        match matchRanges (ncs.2.length + 1) rs.1 false false ncs.2 with
        | .error e => .error e
        | .ok (m, csRest) => matchChunkF fuel (failed || (m == ncs.1)) csRest rs.2
      else if c = '?' then
        let fs : Bool × Str :=
          if failed then (failed, s)
          else
            match s with
            | [] => (true, [])
            | a :: as => (a == '/', as)
        matchChunkF fuel fs.1 cs fs.2
      else if c = '\\' then
        match cs with
        | [] => .error ()
        | d :: ds =>
          let fs : Bool × Str :=
            if failed then (failed, s)
            else
              match s with
              | [] => (true, [])
              | a :: as => (a != d, as)
          matchChunkF fuel fs.1 ds fs.2
      else
        let fs : Bool × Str :=
          if failed then (failed, s)
          else
            match s with
            | [] => (true, [])
            | a :: as => (a != c, as)
        matchChunkF fuel fs.1 cs fs.2

/-- filepath.matchChunk. -/
def matchChunk (chunk s : Str) : Except Unit (Option Str) :=
  matchChunkF (chunk.length + 1) false chunk s

/-- The syntax-validation loop filepath.Match runs before returning a
false result: every remaining chunk is checked against the empty name so a
malformed tail still reports ErrBadPattern.  Fuel (pattern length + 1). -/
def validateRest : Nat → Str → Except Unit Unit
  | 0, _ => .ok ()
  | fuel+1, p =>
    if p = [] then .ok ()
    else
      let sc := scanChunk p
      match matchChunk sc.2.1 [] with
      | .error e => .error e
      | .ok _ => validateRest fuel sc.2.2

/-- Outcome of validateRest as the final answer of a failed Match. -/
def failValidate (rest : Str) : Except Unit Bool :=
  match validateRest (rest.length + 1) rest with
  | .error e => .error e
  | .ok _ => .ok false

/-- The star-backtracking loop of filepath.Match: after the chunk did not
match in place, retry it at every later position of the name that does not
cross a separator.  ok (some t) means the outer loop continues with name t;
ok none means the loop exhausted the candidates. -/
def starLoopGo (chunk rest : Str) : Str → Except Unit (Option Str)
  | [] => .ok none
  | c :: cs =>
    if c = '/' then .ok none
    else
      match matchChunk chunk cs with
      | .error e => .error e
      | .ok (some t) =>
        if rest = [] ∧ t ≠ [] then starLoopGo chunk rest cs else .ok (some t)
      | .ok none => starLoopGo chunk rest cs

/-- The outer loop of filepath.Match.  Each recursive call continues with
the rest of the pattern after one chunk, so fuel (pattern length + 1) is
sufficient; the fuel-0 branch is unreachable at sufficient fuel. -/
def goMatchF : Nat → Str → Str → Except Unit Bool
  | 0, _, _ => .ok false
  | fuel+1, pattern, name =>
    if pattern = [] then .ok (decide (name = []))
    else
      let sc := scanChunk pattern
      let star := sc.1
      let chunk := sc.2.1
      let rest := sc.2.2
      if star ∧ chunk = [] then .ok (!name.contains '/')
      else
        match matchChunk chunk name with
        | .error e => .error e
        | .ok (some t) =>
          if t = [] ∨ rest ≠ [] then goMatchF fuel rest t
          else if star then
            match starLoopGo chunk rest name with
            | .error e => .error e
            | .ok (some t') => goMatchF fuel rest t'
            | .ok none => failValidate rest
          else failValidate rest
        | .ok none =>
          if star then
            match starLoopGo chunk rest name with
            | .error e => .error e
            | .ok (some t') => goMatchF fuel rest t'
            | .ok none => failValidate rest
          else failValidate rest

/-- filepath.Match (on Linux): ok b is (b, nil), error () is ErrBadPattern. -/
def goMatch (pattern name : Str) : Except Unit Bool :=
  goMatchF (pattern.length + 1) pattern name

/-- Registration of one -g pattern (src/main.go lines 36-46): the pattern
is validated by matching it against the empty string; on success it is
appended to the glob list, otherwise the configuration error is returned
before any directory is touched. -/
def registerGlob (globs : List Str) (pattern : Str) : Except Unit (List Str) :=
  match goMatch pattern [] with
  | .error e => .error e
  | .ok _ => .ok (globs ++ [pattern])

/-- The built-in default pattern list (src/main.go line 35). -/
def defaultGlobs : List Str := [strL "*.mp3"]

/-- The pattern loop of the walk callback (src/main.go lines 112-123):
a path is kept iff some pattern matches it, a Match error being treated as
a non-match (the error is discarded at walk time). -/
def matchesAny (globs : List Str) (path : Str) : Bool :=
  globs.any fun p =>
    match goMatch p path with
    | .ok b => b
    | .error _ => false

/-- A chunk character with no special meaning to matchChunk: anything but
an opening bracket, a question mark, or a backslash. -/
def isLitChar (c : Char) : Bool := !(c = '[' || c = '?' || c = '\\')

/- ---------------- Path flattening and file records ---------------- -/

/-- strings.NewReplacer(separator, underscore): flattenPath (line 97-99). -/
def flattenPath (p : Str) : Str := p.map fun c => if c = '/' then '_' else c

/-- filepath.Base: empty path gives the dot, an all-separator path gives
the separator, otherwise the last component after trailing separators. -/
def goBase (p : Str) : Str :=
  if p = [] then strL "."
  else
    let q := (p.reverse.dropWhile fun c => c = '/').reverse
    if q = [] then strL "/"
    else (q.reverse.takeWhile fun c => c ≠ '/').reverse

/-- sanitizeDirPrefix (src/main.go lines 306-314).  The filepath.Clean
call of the source is omitted: Clean is the identity on every output of
filepath.Base (a single path component, a dot, or the separator). -/
def sanitizeDirPrefix (dir : Str) : Str :=
  let b := goBase dir
  if b = strL "." then [] else b ++ ['_']

/-- The archive entry name built at src/main.go line 115. -/
def entryName (dir rel : Str) : Str := sanitizeDirPrefix dir ++ flattenPath rel

/-- filepath.Join(dir, rel) for a cleaned dir argument and a nonempty
relative walk path: empty and dot dirs act as the identity. -/
def goJoin (dir rel : Str) : Str :=
  if dir = [] ∨ dir = strL "." then rel else dir ++ '/' :: rel

/-- The fileRecord struct (src/main.go lines 93-95). -/
structure fileRecord where
  path : Str
  name : Str
deriving DecidableEq

/-- The record appended for a matching file at src/main.go lines 115-120. -/
def mkRecord (dir rel : Str) : fileRecord :=
  { path := goJoin dir rel, name := entryName dir rel }

/- ---------------- The discovery walker ---------------- -/

/-- Base errors of the pipeline (the non-wrapping errors of main.go). -/
inductive BaseErr where
  | walkFail (path : Str)
  | noFilesFound
  | openFail (path : Str)
  | nilErr
  | copyFail (path : Str)
  | createFail (nm : Str)
deriving DecidableEq

/-- The wrapping contexts added by each fmt.Errorf of main.go. -/
inductive Ctx where
  | walkingDir
  | searchingFiles
  | dirCtx (dir : Str)
  | creatingZipRecord
  | writingFileToArchive
  | unableToOpenFile (path : Str)
  | unableToWriteFile (path : Str)
deriving DecidableEq

/-- An error chain: a base error under zero or more wraps. -/
inductive Err where
  | base (e : BaseErr)
  | wrap (c : Ctx) (e : Err)
deriving DecidableEq

/-- A directory tree in first-child / next-sibling form.  Sibling order is
the walk (lexical) order of fs.WalkDir; a dir node carries whether reading
it succeeds, the unreadable case being the traversal error surfaced by the
walk callback. -/
inductive Fs where
  | nil : Fs
  | file (nm : Str) (sib : Fs) : Fs
  | dir (nm : Str) (readOk : Bool) (sub : Fs) (sib : Fs) : Fs
deriving DecidableEq

/-- The filesystem under one directory argument: whether the root itself
is readable, plus its entries. -/
structure DirFS where
  rootOk : Bool
  entries : Fs
deriving DecidableEq

/-- Walk path of an entry: names are joined with the separator; the root
prefix is empty because fs.WalkDir paths are relative to the root. -/
def relPath (pre nm : Str) : Str := if pre = [] then nm else pre ++ '/' :: nm

/-- The walk of fs.WalkDir, collecting the relative path of every regular
file in visit order; directory entries produce no path themselves
(the callback returns early on d.IsDir()), and an unreadable directory
aborts the whole walk with its error. -/
def walkFilesAux (pre : Str) : Fs → Except BaseErr (List Str)
  | .nil => .ok []
  | .file nm sib =>
    match walkFilesAux pre sib with
    | .error e => .error e
    | .ok rest => .ok (relPath pre nm :: rest)
  | .dir nm readOk sub sib =>
    if readOk then
      match walkFilesAux (relPath pre nm) sub with
      | .error e => .error e
      | .ok s =>
        match walkFilesAux pre sib with
        | .error e => .error e
        | .ok r => .ok (s ++ r)
    else .error (.walkFail (relPath pre nm))

/-- All file paths reachable in one directory argument's filesystem. -/
def walkFiles (fsys : DirFS) : Except BaseErr (List Str) :=
  if fsys.rootOk then walkFilesAux [] fsys.entries
  else .error (.walkFail (strL "."))

/-- The walk of searchRecords (src/main.go lines 106-125): identical
traversal, but each file is matched against the glob list on the spot and
a fileRecord is appended for the first matching pattern. -/
def walkSearch (dir : Str) (globs : List Str) (pre : Str) : Fs → Except BaseErr (List fileRecord)
  | .nil => .ok []
  | .file nm sib =>
    match walkSearch dir globs pre sib with
    | .error e => .error e
    | .ok rest =>
      if matchesAny globs (relPath pre nm) then .ok (mkRecord dir (relPath pre nm) :: rest)
      else .ok rest
  | .dir nm readOk sub sib =>
    if readOk then
      match walkSearch dir globs (relPath pre nm) sub with
      | .error e => .error e
      | .ok s =>
        match walkSearch dir globs pre sib with
        | .error e => .error e
        | .ok r => .ok (s ++ r)
    else .error (.walkFail (relPath pre nm))

/-- searchRecords (src/main.go lines 103-135): walk errors come back
wrapped as walking-dir errors, a completed walk with zero matches is the
distinguished errNoFilesFound, anything else is the record list. -/
def searchRecords (dir : Str) (fsys : DirFS) (globs : List Str) : Except Err (List fileRecord) :=
  if fsys.rootOk then
    match walkSearch dir globs [] fsys.entries with
    | .error e => .error (.wrap .walkingDir (.base e))
    | .ok found =>
      if found = [] then .error (.base .noFilesFound)
      else .ok found
  else .error (.wrap .walkingDir (.base (.walkFail (strL "."))))

/-- Number of occurrences of an element in a list. -/
def countOcc {α : Type} [DecidableEq α] (a : α) : List α → Nat
  | [] => 0
  | x :: xs => (if x = a then 1 else 0) + countOcc a xs

/-- A sample filesystem: two mp3 files at the top level and one inside a
subdirectory (the latter is skipped by the default pattern). -/
def wTree1 : Fs :=
  .file (strL "t2.mp3")
    (.dir (strL "d") true (.file (strL "x.mp3") .nil)
      (.file (strL "t10.mp3") .nil))

def wFsys1 : DirFS := { rootOk := true, entries := wTree1 }

/-- The records discovered in wFsys1 under directory argument book1. -/
def wRecs1 : List fileRecord :=
  [mkRecord (strL "book1") (strL "t2.mp3"), mkRecord (strL "book1") (strL "t10.mp3")]

/-- A filesystem with a single file that matches no default pattern. -/
def wFsys2 : DirFS := { rootOk := true, entries := .file (strL "a.txt") .nil }

/- ---------------- The sorter ---------------- -/

/-- The comparison closure of sortFileRecords (src/main.go lines 138-146):
0 for identical records, otherwise -1 or 1 from naturalLess on the entry
names; none is the panic naturalLess can raise. -/
def cmpRec (a b : fileRecord) : Option Int :=
  if a = b then some 0
  else (naturalLess a.name b.name).map fun less => if less then -1 else 1

/-- Stable insertion of a record into an already sorted list: the record
goes before the first element it does not compare strictly after, which is
the unique stable position.  Models one element's placement by
slices.SortStableFunc. -/
def orderedInsertRec (a : fileRecord) : List fileRecord → Option (List fileRecord)
  | [] => some [a]
  | b :: l =>
    match cmpRec a b with
    | none => none
    | some c =>
      if c ≤ 0 then some (a :: b :: l)
      else (orderedInsertRec a l).map fun t => b :: t

/-- sortFileRecords (src/main.go lines 137-148) as a stable insertion
sort with the same comparison closure; none models a comparator panic. -/
def sortFileRecords : List fileRecord → Option (List fileRecord)
  | [] => some []
  | a :: l =>
    match sortFileRecords l with
    | none => none
    | some l' => orderedInsertRec a l'

/-- Adjacent order produced by the comparator: b does not sort strictly
before a.  Either the records are identical (comparison 0), or naturalLess
put a first, or naturalLess refused to put b before a. -/
def natOrdered (a b : fileRecord) : Prop :=
  a = b ∨ naturalLess a.name b.name = some true ∨ naturalLess b.name a.name = some false

/- ---------------- The archive pipeline ---------------- -/

/-- Outcome oracles for the impure steps of the pipeline: whether opening,
stat-ing and copying a source file (by path) succeed, and whether creating
an archive entry (by name) succeeds. -/
structure FsEnv where
  openOk : Str → Bool
  statOk : Str → Bool
  copyOk : Str → Bool
  createOk : Str → Bool

/-- An environment in which every filesystem and archive step succeeds. -/
def wEnv : FsEnv :=
  { openOk := fun _ => true, statOk := fun _ => true
    copyOk := fun _ => true, createOk := fun _ => true }

/-- An environment in which opening one particular source file fails. -/
def wEnvFail : FsEnv :=
  { openOk := fun p => decide (p ≠ strL "b/t2.mp3"), statOk := fun _ => true
    copyOk := fun _ => true, createOk := fun _ => true }

/-- Two directory arguments whose entries are out of natural order. -/
def wDirs : List (Str × DirFS) :=
  [(strL "b",
    { rootOk := true
      entries := .file (strL "t2.mp3") (.file (strL "t10.mp3") (.file (strL "t1.mp3") .nil)) }),
   (strL "a", { rootOk := true, entries := .file (strL "x.mp3") .nil })]

/-- The archive entries the successful session on wDirs creates. -/
def wEntries : List fileRecord :=
  [mkRecord (strL "b") (strL "t1.mp3"), mkRecord (strL "b") (strL "t2.mp3"),
   mkRecord (strL "b") (strL "t10.mp3"), mkRecord (strL "a") (strL "x.mp3")]

/-- Directory arguments around the failing one, for the abort scenario. -/
def wPre : List (Str × DirFS) :=
  [(strL "a", { rootOk := true, entries := .file (strL "x.mp3") .nil })]

def wDirB : Str × DirFS :=
  (strL "b", { rootOk := true, entries := .file (strL "t2.mp3") .nil })

def wPost : List (Str × DirFS) :=
  [(strL "c", { rootOk := true, entries := .file (strL "z.mp3") .nil })]

/-- The error copyFileTo raises in wEnvFail on the file of wDirB, as
wrapped by the record loop. -/
def wErrB : Err :=
  .wrap .writingFileToArchive
    (.wrap (.unableToOpenFile (strL "b/t2.mp3")) (.base (.openFail (strL "b/t2.mp3"))))

/-- copyFileTo (src/main.go lines 209-239): open, stat, then copy, each
failure wrapped with the file name.  The stat-failure branch of the source
wraps errFile, which is nil at that point (line 218), modelled by nilErr. -/
def copyFileTo (env : FsEnv) (path : Str) : Option Err :=
  if !env.openOk path then some (.wrap (.unableToOpenFile path) (.base (.openFail path)))
  else if !env.statOk path then some (.wrap (.unableToOpenFile path) (.base .nilErr))
  else if !env.copyOk path then some (.wrap (.unableToWriteFile path) (.base (.copyFail path)))
  else none

/-- One iteration of the record loop of processDir (lines 191-204): create
the archive entry, then stream the file into it.  Returns the entries that
now exist in the archive (the entry exists once its header is created,
even if the copy then fails) and the error, wrapped as in the source. -/
def writeOne (env : FsEnv) (r : fileRecord) : List fileRecord × Option Err :=
  if !env.createOk r.name then
    ([], some (.wrap .creatingZipRecord (.base (.createFail r.name))))
  else
    match copyFileTo env r.path with
    | some e => ([r], some (.wrap .writingFileToArchive e))
    | none => ([r], none)

/-- The record loop of processDir: stops at the first failure. -/
def writeRecords (env : FsEnv) : List fileRecord → List fileRecord × Option Err
  | [] => ([], none)
  | r :: rs =>
    match writeOne env r with
    | (es, some e) => (es, some e)
    | (es, none) =>
      let rec' := writeRecords env rs
      (es ++ rec'.1, rec'.2)

/-- processDir (src/main.go lines 172-207): search, sort, then write every
sorted record.  The outer some/none layer models the panic the comparator
can raise during sorting; search errors are wrapped as searching-files. -/
def processDir (env : FsEnv) (dir : Str) (fsys : DirFS) (globs : List Str) :
    Option (List fileRecord × Option Err) :=
  match searchRecords dir fsys globs with
  | .error e => some ([], some (.wrap .searchingFiles e))
  | .ok found =>
    match sortFileRecords found with
    | none => none
    | some sorted => some (writeRecords env sorted)

/-- process (src/main.go lines 160-170): directories strictly in argument
order, stopping at the first error, which is wrapped with the directory
name.  Returns the archive entries created (in creation order) and the
error, if any; none is a comparator panic. -/
def process (env : FsEnv) (globs : List Str) : List (Str × DirFS) → Option (List fileRecord × Option Err)
  | [] => some ([], none)
  | d :: rest =>
    match processDir env d.1 d.2 globs with
    | none => none
    | some (es, some e) => some (es, some (.wrap (.dirCtx d.1) e))
    | some (es, none) =>
      match process env globs rest with
      | none => none
      | some (more, errRest) => some (es ++ more, errRest)

/- ==================== Theorems ==================== -/

/- Generic list helpers. -/

theorem length_dropWhile_le' {α : Type} (p : α → Bool) (l : List α) :
    (l.dropWhile p).length ≤ l.length :=
  (List.dropWhile_suffix p).length_le

theorem dropWhile_head_not {α : Type} {p : α → Bool} :
    ∀ (l : List α) {c : α} {t : List α}, l.dropWhile p = c :: t → p c = false := by
  intro l
  induction l with
  | nil => intro c t h; simp [List.dropWhile] at h
  | cons a as ih =>
    intro c t h
    rw [List.dropWhile_cons] at h
    split at h
    · exact ih h
    · cases h
      next hpa => simpa using hpa

theorem mem_of_getLastQ {α : Type} : ∀ {l : List α} {c : α}, l.getLast? = some c → c ∈ l := by
  intro l
  induction l with
  | nil => intro c h; simp [List.getLast?] at h
  | cons a as ih =>
    intro c h
    cases as with
    | nil =>
      simp [List.getLast?] at h
      simp [h]
    | cons b bs =>
      rw [List.getLast?_cons_cons] at h
      exact List.mem_cons_of_mem _ (ih h)

theorem strLt_irrefl (s : Str) : strLt s s = false := by
  induction s with
  | nil => rfl
  | cons a as ih => simp [strLt, ih, lt_irrefl]

/- naturalLess: supporting lemmas. -/

/-- After stripping the non-digit prefix and the following digit run, the
string got strictly shorter (the digit run is nonempty). -/
theorem digitTail_length_lt {a : Str} {c : Char} {t : Str}
    (h : a.dropWhile (fun c => !isGoDigit c) = c :: t) :
    ((c :: t).dropWhile isGoDigit).length < a.length := by
  have hc : isGoDigit c = true := by
    have := dropWhile_head_not a h
    simpa using this
  have h1 : (c :: t).dropWhile isGoDigit = t.dropWhile isGoDigit := by
    rw [List.dropWhile_cons, if_pos hc]
  have h2 : (t.dropWhile isGoDigit).length ≤ t.length := length_dropWhile_le' _ _
  have h3 : (c :: t).length ≤ a.length := by
    rw [← h]; exact length_dropWhile_le' _ _
  simp only [h1]
  have : t.length < (c :: t).length := by simp
  omega

/-- Stripping the non-digit prefix and the digit run strictly shortens. -/
theorem digitTail_length_lt' {a : Str} (h : a.dropWhile (fun c => !isGoDigit c) ≠ []) :
    ((a.dropWhile (fun c => !isGoDigit c)).dropWhile isGoDigit).length < a.length := by
  obtain ⟨c, t, hct⟩ := List.exists_cons_of_ne_nil h
  rw [hct]
  exact digitTail_length_lt hct

/-- The naturalLess loop is insensitive to fuel once fuel exceeds the
length of the first string. -/
theorem nlf_fuel_irrel : ∀ (f g : Nat) (a b : Str), a.length < f → a.length < g →
    naturalLessFuel f a b = naturalLessFuel g a b := by
  intro f
  induction f with
  | zero => intro g a b hf; exact absurd hf (Nat.not_lt_zero _)
  | succ f ih =>
    intro g a b hf hg
    cases g with
    | zero => exact absurd hg (Nat.not_lt_zero _)
    | succ g =>
      simp only [naturalLessFuel]
      repeat' split
      any_goals rfl
      have hne : a.dropWhile (fun c => !isGoDigit c) ≠ [] := by assumption
      have hlt := digitTail_length_lt' hne
      exact ih g _ _ (by omega) (by omega)

/-- digitRunsParseF is insensitive to fuel above the string length. -/
theorem drpF_fuel_irrel : ∀ (f g : Nat) (s : Str), s.length < f → s.length < g →
    digitRunsParseF f s = digitRunsParseF g s := by
  intro f
  induction f with
  | zero => intro g s hf; exact absurd hf (Nat.not_lt_zero _)
  | succ f ih =>
    intro g s hf hg
    cases g with
    | zero => exact absurd hg (Nat.not_lt_zero _)
    | succ g =>
      simp only [digitRunsParseF]
      split
      · rfl
      · next c t heq =>
        have hlt : ((c :: t).dropWhile isGoDigit).length < s.length := digitTail_length_lt heq
        rw [ih g _ (by omega) (by omega)]

/-- Unfolding digitRunsParse once past the first digit run. -/
theorem drp_unfold {s : Str} {c : Char} {t : Str}
    (hs : digitRunsParse s = true)
    (h : s.dropWhile (fun c => !isGoDigit c) = c :: t) :
    (goAtoi ((c :: t).takeWhile isGoDigit)).isSome = true ∧
      digitRunsParse ((c :: t).dropWhile isGoDigit) = true := by
  unfold digitRunsParse at hs
  simp only [digitRunsParseF, h, Bool.and_eq_true] at hs
  refine ⟨hs.1, ?_⟩
  have hlt : ((c :: t).dropWhile isGoDigit).length < s.length := digitTail_length_lt h
  unfold digitRunsParse
  rw [drpF_fuel_irrel (((c :: t).dropWhile isGoDigit).length + 1) s.length _ (by omega) (by omega)]
  exact hs.2

/-- A string all of whose characters are non-digits drops to nothing. -/
theorem dropWhile_nil_of_all {s : Str} (h : s.all (fun c => !isGoDigit c) = true) :
    s.dropWhile (fun c => !isGoDigit c) = [] :=
  List.dropWhile_eq_nil_iff.mpr (by simpa [List.all_eq_true] using h)

/-- A string containing a digit does not drop to nothing. -/
theorem dropWhile_ne_nil_of_any {s : Str} (h : s.any isGoDigit = true) :
    s.dropWhile (fun c => !isGoDigit c) ≠ [] := by
  intro hnil
  rw [List.dropWhile_eq_nil_iff] at hnil
  obtain ⟨x, hx, hdx⟩ := List.any_eq_true.mp h
  have := hnil x hx
  simp [hdx] at this

/-- Self-comparison of a string ending in a digit, under parseability. -/
theorem nlf_self : ∀ (f : Nat) (s : Str), s.length < f → endsInDigit s = true →
    digitRunsParse s = true → naturalLessFuel f s s = some true := by
  intro f
  induction f with
  | zero => intro s hf; exact absurd hf (Nat.not_lt_zero _)
  | succ f ih =>
    intro s hf hd hp
    cases hA : s.dropWhile (fun c => !isGoDigit c) with
    | nil =>
      exfalso
      unfold endsInDigit at hd
      cases hl : s.getLast? with
      | none => rw [hl] at hd; simp at hd
      | some c =>
        rw [hl] at hd
        have hd' : isGoDigit c = true := hd
        have hmem : c ∈ s := mem_of_getLastQ hl
        have := List.dropWhile_eq_nil_iff.mp hA c hmem
        simp [hd'] at this
    | cons c t =>
      obtain ⟨hatoi, hrest⟩ := drp_unfold hp hA
      obtain ⟨v, hv⟩ := Option.isSome_iff_exists.mp hatoi
      by_cases htail : (c :: t).dropWhile isGoDigit = []
      · simp [naturalLessFuel, hA, hv, htail]
      · have hlt : ((c :: t).dropWhile isGoDigit).length < s.length := digitTail_length_lt hA
        have hd' : endsInDigit ((c :: t).dropWhile isGoDigit) = true := by
          have h1 : s.getLast? = (c :: t).getLast? := by
            conv_lhs => rw [← List.takeWhile_append_dropWhile (fun c => !isGoDigit c) s, hA]
            exact List.getLast?_append_of_ne_nil _ (by simp)
          have h2 : (c :: t).getLast? = ((c :: t).dropWhile isGoDigit).getLast? := by
            conv_lhs => rw [← List.takeWhile_append_dropWhile isGoDigit (c :: t)]
            exact List.getLast?_append_of_ne_nil _ htail
          unfold endsInDigit at hd ⊢
          rw [← h2, ← h1]
          exact hd
        have hrec := ih ((c :: t).dropWhile isGoDigit) (by omega) hd' hrest
        simp [naturalLessFuel, hA, hv, htail, hrec]

/-- Totality of the comparator on strings whose digit runs all parse. -/
theorem nlf_isSome : ∀ (f : Nat) (a b : Str), a.length < f →
    digitRunsParse a = true → digitRunsParse b = true →
    (naturalLessFuel f a b).isSome = true := by
  intro f
  induction f with
  | zero => intro a b hf; exact absurd hf (Nat.not_lt_zero _)
  | succ f ih =>
    intro a b hf hpa hpb
    cases hA : a.dropWhile (fun c => !isGoDigit c) with
    | nil =>
      by_cases hB : b.dropWhile (fun c => !isGoDigit c) = []
      · simp [naturalLessFuel, hA, hB]
      · simp [naturalLessFuel, hA, hB]
    | cons cA tA =>
      obtain ⟨haA, hrA⟩ := drp_unfold hpa hA
      obtain ⟨vA, hvA⟩ := Option.isSome_iff_exists.mp haA
      by_cases hB : b.dropWhile (fun c => !isGoDigit c) = []
      · simp [naturalLessFuel, hA, hB]
      · obtain ⟨cB, tB, hBct⟩ := List.exists_cons_of_ne_nil hB
        obtain ⟨haB, hrB⟩ := drp_unfold hpb hBct
        obtain ⟨vB, hvB⟩ := Option.isSome_iff_exists.mp haB
        simp only [naturalLessFuel, hA, hBct, hvA, hvB]
        repeat' split
        any_goals simp
        have hlt := digitTail_length_lt hA
        exact ih _ _ (by omega) hrA hrB

/-- C3 counterexample: for the pair ("a", "b1") exactly one string contains
a digit and the non-digit prefixes "a" and "b" differ with "a" plainly
smaller, yet the comparator does not declare "a" smaller: it returns false
immediately because "a" has no digit. -/
theorem c3_counterexample :
    naturalLess (strL "a") (strL "b1") = some false ∧
      strLt (strL "a") (strL "b") = true := by decide

/-- C3 (amended): whenever exactly one of the two strings contains a digit,
the digit-free string sorts after the digit-containing one regardless of
how the non-digit prefixes compare: naturalLess returns false with the
digit-free string first and true with it second. -/
theorem c3_digit_free_sorts_last (a b : Str)
    (ha : a.all (fun c => !isGoDigit c) = true)
    (hb : b.any isGoDigit = true) :
    naturalLess a b = some false ∧ naturalLess b a = some true := by
  have hA := dropWhile_nil_of_all ha
  have hB := dropWhile_ne_nil_of_any hb
  constructor
  · unfold naturalLess
    simp [naturalLessFuel, hA, hB]
  · unfold naturalLess
    simp [naturalLessFuel, hA, hB]

/-- Witness for C3's amended statement at a = "a", b = "b1". -/
theorem c3_witness :
    (strL "a").all (fun c => !isGoDigit c) = true ∧
      (strL "b1").any isGoDigit = true ∧
      (naturalLess (strL "a") (strL "b1") = some false ∧
        naturalLess (strL "b1") (strL "a") = some true) :=
  ⟨by decide, by decide,
    c3_digit_free_sorts_last (strL "a") (strL "b1") (by decide) (by decide)⟩

/-- C4 counterexample: on a digit run of twenty nines the numeric value
exceeds the 64-bit int range, strconv.Atoi fails, and the comparison is
aborted by the panic branch instead of returning a boolean. -/
theorem c4_counterexample : naturalLess nines20 nines20 = none := by decide

/-- C4 (amended): the comparator is defined and returns a boolean for every
pair of strings whose maximal digit runs all parse as 64-bit ints; the
parse-failure branch is reached exactly on inputs outside that set. -/
theorem c4_total_on_parseable (a b : Str)
    (ha : digitRunsParse a = true) (hb : digitRunsParse b = true) :
    ∃ r, naturalLess a b = some r :=
  Option.isSome_iff_exists.mp (nlf_isSome (a.length + 1) a b (by omega) ha hb)

/-- Witness for C4's amended statement at a = "a12", b = "b3". -/
theorem c4_witness :
    digitRunsParse (strL "a12") = true ∧ digitRunsParse (strL "b3") = true ∧
      ∃ r, naturalLess (strL "a12") (strL "b3") = some r :=
  ⟨by decide, by decide, c4_total_on_parseable (strL "a12") (strL "b3") (by decide) (by decide)⟩

/-- C10 counterexample: bNines is nonempty and ends in a digit, but
comparing it with itself panics (its digit run does not parse) rather than
returning true as the claim states. -/
theorem c10_counterexample :
    bNines ≠ [] ∧ endsInDigit bNines = true ∧ naturalLess bNines bNines = none := by decide

/-- C10 (amended): for every string that ends in a digit and whose digit
runs all parse, self-comparison returns true; for every string with no
digit at all, self-comparison returns false; so the comparator is not
irreflexive on all strings. -/
theorem c10_self_compare (s : Str) :
    (endsInDigit s = true → digitRunsParse s = true → naturalLess s s = some true) ∧
    (s.all (fun c => !isGoDigit c) = true → naturalLess s s = some false) := by
  constructor
  · intro hd hp
    exact nlf_self (s.length + 1) s (by omega) hd hp
  · intro h
    have hA := dropWhile_nil_of_all h
    unfold naturalLess
    simp [naturalLessFuel, hA, strLt_irrefl]

/-- Witness for C10's amended statement at s = "a1" and s = "ab". -/
theorem c10_witness :
    (endsInDigit (strL "a1") = true ∧ digitRunsParse (strL "a1") = true ∧
      naturalLess (strL "a1") (strL "a1") = some true) ∧
    ((strL "ab").all (fun c => !isGoDigit c) = true ∧
      naturalLess (strL "ab") (strL "ab") = some false) :=
  ⟨⟨by decide, by decide, (c10_self_compare (strL "a1")).1 (by decide) (by decide)⟩,
   ⟨by decide, (c10_self_compare (strL "ab")).2 (by decide)⟩⟩

/-- C5: the Path Flattener maps directory "book1" with relative path
"disc1/track02.mp3" to entry name "book1_disc1_track02.mp3", and for the
dot directory the entry name is the flattened relative path with no
directory prefix. -/
theorem c5_flattening :
    entryName (strL "book1") (strL "disc1/track02.mp3") = strL "book1_disc1_track02.mp3" ∧
      ∀ rel : Str, entryName (strL ".") rel = flattenPath rel := by
  constructor
  · decide
  · intro rel
    show sanitizeDirPrefix (strL ".") ++ flattenPath rel = flattenPath rel
    rw [show sanitizeDirPrefix (strL ".") = [] from by decide]
    rfl

/- Matcher lemmas: a bad pattern is reported independently of the name. -/

/-- The range loop's outcome kind and the chunk it leaves behind depend
only on the chunk and the started flag, never on the rune or the
accumulated match flag. -/
theorem matchRanges_indep : ∀ (f : Nat) (st : Bool) (ch : Str) (r r' : Char) (m m' : Bool),
    (matchRanges f r m st ch = .error () ∧ matchRanges f r' m' st ch = .error ()) ∨
    (∃ b b' rest, matchRanges f r m st ch = .ok (b, rest) ∧
      matchRanges f r' m' st ch = .ok (b', rest)) := by
  intro f
  induction f with
  | zero =>
    intro st ch r r' m m'
    right
    exact ⟨false, false, [], rfl, rfl⟩
  | succ f ih =>
    intro st ch r r' m m'
    simp only [matchRanges]
    repeat' split
    all_goals
      first
      | (left; exact ⟨rfl, rfl⟩)
      | (right; exact ⟨_, _, _, rfl, rfl⟩)
      | apply ih

/-- Error outcome of the range loop is rune-independent. -/
theorem matchRanges_error_indep {f : Nat} {r : Char} {m st : Bool} {ch : Str}
    (r' : Char) (m' : Bool)
    (h : matchRanges f r m st ch = .error ()) :
    matchRanges f r' m' st ch = .error () := by
  rcases matchRanges_indep f st ch r r' m m' with ⟨h1, h2⟩ | ⟨b, b', rest, h1, h2⟩
  · exact h2
  · rw [h] at h1; exact absurd h1 (by simp)

/-- Success of the range loop leaves the same chunk, rune-independently. -/
theorem matchRanges_ok_indep {f : Nat} {r : Char} {m st : Bool} {ch : Str}
    {b : Bool} {rest : Str} (r' : Char) (m' : Bool)
    (h : matchRanges f r m st ch = .ok (b, rest)) :
    ∃ b', matchRanges f r' m' st ch = .ok (b', rest) := by
  rcases matchRanges_indep f st ch r r' m m' with ⟨h1, h2⟩ | ⟨b0, b0', rest0, h1, h2⟩
  · rw [h] at h1; exact absurd h1 (by simp)
  · rw [h] at h1
    obtain ⟨hb, hrest⟩ := Prod.mk.injEq .. ▸ (Except.ok.injEq .. ▸ h1)
    exact ⟨b0', by rw [h2, hrest]⟩

/-- A chunk's error outcome in matchChunk does not depend on the failed
flag or on the name being matched: a malformed chunk errors against every
name, a well-formed one against none. -/
theorem matchChunkF_error_indep : ∀ (f : Nat) (c : Str) (fl fl' : Bool) (s s' : Str),
    matchChunkF f fl c s = .error () → matchChunkF f fl' c s' = .error () := by
  intro f
  induction f with
  | zero => intro c fl fl' s s' h; simp [matchChunkF] at h
  | succ f ih =>
    intro c fl fl' s s' h
    cases c with
    | nil =>
      exfalso
      simp only [matchChunkF] at h
      split at h <;> simp at h
    | cons c0 cs =>
      simp only [matchChunkF] at h ⊢
      split at h
      · -- c0 = '['
        next hb =>
        rw [if_pos hb]
        split at h
        · next heq =>
          rw [matchRanges_error_indep _ _ heq]
        · next mm csRest heq =>
          obtain ⟨mm', heq'⟩ := matchRanges_ok_indep _ _ heq
          rw [heq']
          exact ih _ _ _ _ _ h
      · split at h
        · -- c0 = '?'
          next hq =>
          rw [if_neg (by assumption), if_pos hq]
          exact ih _ _ _ _ _ h
        · split at h
          · -- c0 = '\\'
            next hbs =>
            rw [if_neg (by assumption), if_neg (by assumption), if_pos hbs]
            cases cs with
            | nil => rfl
            | cons d ds => exact ih _ _ _ _ _ h
          · -- literal
            rw [if_neg (by assumption), if_neg (by assumption), if_neg (by assumption)]
            exact ih _ _ _ _ _ h

/-- Once the failed flag is set, matchChunk can only report a non-match or
a malformed chunk, never a successful match. -/
theorem matchChunkF_true_none : ∀ (f : Nat) (c s : Str),
    matchChunkF f true c s = .ok none ∨ matchChunkF f true c s = .error () := by
  intro f
  induction f with
  | zero => intro c s; left; rfl
  | succ f ih =>
    intro c s
    cases c with
    | nil => left; rfl
    | cons c0 cs =>
      simp only [matchChunkF, Bool.true_or, if_true]
      split
      · split
        · right; rfl
        · exact ih _ _
      · split
        · exact ih _ _
        · split
          · cases cs with
            | nil => right; rfl
            | cons d ds => exact ih _ _
          · exact ih _ _

/-- Against the empty name, a nonempty chunk never matches: the result is
a non-match or a malformed-chunk error. -/
theorem matchChunkF_empty_name : ∀ (f : Nat) (c0 : Char) (cs : Str),
    matchChunkF (f+1) false (c0 :: cs) [] = .ok none ∨
      matchChunkF (f+1) false (c0 :: cs) [] = .error () := by
  intro f c0 cs
  simp only [matchChunkF, List.isEmpty_nil, Bool.or_true, Bool.true_or, if_true]
  split
  · split
    · right; rfl
    · exact matchChunkF_true_none _ _ _
  · split
    · exact matchChunkF_true_none _ _ _
    · split
      · cases cs with
        | nil => right; rfl
        | cons d ds => exact matchChunkF_true_none _ _ _
      · exact matchChunkF_true_none _ _ _

theorem matchChunk_empty_name (c : Str) (hc : c ≠ []) :
    matchChunk c [] = .ok none ∨ matchChunk c [] = .error () := by
  cases c with
  | nil => exact absurd rfl hc
  | cons c0 cs => exact matchChunkF_empty_name (cs.length + 1) c0 cs

/-- scanBody splits its input: chunk and rest concatenate back to it. -/
theorem scanBody_append : ∀ (n : Nat) (p : Str), p.length ≤ n → ∀ ir : Bool,
    (scanBody ir p).1 ++ (scanBody ir p).2 = p := by
  intro n
  induction n with
  | zero =>
    intro p hp ir
    have hnil : p = [] := List.eq_nil_of_length_eq_zero (Nat.le_zero.mp hp)
    subst hnil; rfl
  | succ n ih =>
    intro p hp ir
    cases p with
    | nil => rfl
    | cons c cs =>
      rw [scanBody.eq_def]; dsimp only
      by_cases h1 : c = '\\'
      · rw [if_pos h1]
        cases cs with
        | nil => simp
        | cons d ds =>
          rcases hsb : scanBody ir ds with ⟨ch, r⟩
          have hds := ih ds (by simp at hp; omega) ir
          rw [hsb] at hds
          simp [hsb, hds]
      · rw [if_neg h1]
        by_cases h2 : c = '['
        · rw [if_pos h2]
          rcases hsb : scanBody true cs with ⟨ch, r⟩
          have hcs := ih cs (by simp at hp; omega) true
          rw [hsb] at hcs
          simp [hsb, hcs]
        · rw [if_neg h2]
          by_cases h3 : c = ']'
          · rw [if_pos h3]
            rcases hsb : scanBody false cs with ⟨ch, r⟩
            have hcs := ih cs (by simp at hp; omega) false
            rw [hsb] at hcs
            simp [hsb, hcs]
          · rw [if_neg h3]
            by_cases h4 : (c = '*' && !ir) = true
            · rw [if_pos h4]; rfl
            · rw [if_neg h4]
              rcases hsb : scanBody ir cs with ⟨ch, r⟩
              have hcs := ih cs (by simp at hp; omega) ir
              rw [hsb] at hcs
              simp [hsb, hcs]

/-- Outside a bracket range, a chunk starting with a non-star character is
nonempty. -/
theorem scanBody_chunk_ne {c : Char} (cs : Str) (hc : c ≠ '*') :
    (scanBody false (c :: cs)).1 ≠ [] := by
  rw [scanBody.eq_def]; dsimp only
  by_cases h1 : c = '\\'
  · rw [if_pos h1]
    cases cs with
    | nil => simp
    | cons d ds =>
      rcases hsb : scanBody false ds with ⟨ch, r⟩
      simp [hsb]
  · rw [if_neg h1]
    by_cases h2 : c = '['
    · rw [if_pos h2]
      rcases hsb : scanBody true cs with ⟨ch, r⟩
      simp [hsb]
    · rw [if_neg h2]
      by_cases h3 : c = ']'
      · rw [if_pos h3]
        rcases hsb : scanBody false cs with ⟨ch, r⟩
        simp [hsb]
      · rw [if_neg h3]
        rw [if_neg (by simp [hc])]
        rcases hsb : scanBody false cs with ⟨ch, r⟩
        simp [hsb]

/-- One scanChunk step strictly shortens the pattern. -/
theorem scanChunk_rest_lt (p : Str) (hp : p ≠ []) : (scanChunk p).2.2.length < p.length := by
  cases p with
  | nil => exact absurd rfl hp
  | cons c cs =>
    simp only [scanChunk]
    have happ := scanBody_append (((c :: cs).dropWhile fun c => c = '*').length)
      ((c :: cs).dropWhile fun c => c = '*') le_rfl false
    have hlen := congrArg List.length happ
    rw [List.length_append] at hlen
    by_cases hc : c = '*'
    · have hdw : (c :: cs).dropWhile (fun c => c = '*') = cs.dropWhile (fun c => c = '*') := by
        rw [List.dropWhile_cons, if_pos (by simp [hc])]
      have h1 : (cs.dropWhile fun c => c = '*').length ≤ cs.length := length_dropWhile_le' _ _
      rw [hdw] at hlen
      simp only [hdw]
      simp only [List.length_cons]
      omega
    · have hdw : (c :: cs).dropWhile (fun c => c = '*') = c :: cs := by
        rw [List.dropWhile_cons, if_neg (by simp [hc])]
      rw [hdw] at hlen
      simp only [hdw]
      have hch : (scanBody false (c :: cs)).1 ≠ [] := scanBody_chunk_ne cs hc
      have : 1 ≤ (scanBody false (c :: cs)).1.length := by
        cases hb : (scanBody false (c :: cs)).1 with
        | nil => exact absurd hb hch
        | cons x xs => simp
      simp only [List.length_cons] at hlen ⊢
      omega

/-- If scanChunk produced an empty chunk, the pattern was all stars: the
star flag is set and nothing remains. -/
theorem scanChunk_chunk_nil (p : Str) (hp : p ≠ []) (h : (scanChunk p).2.1 = []) :
    (scanChunk p).1 = true ∧ (scanChunk p).2.2 = [] := by
  cases p with
  | nil => exact absurd rfl hp
  | cons c cs =>
    cases hp1 : (c :: cs).dropWhile (fun c => c = '*') with
    | nil =>
      have hc : c = '*' := by
        by_contra hcn
        rw [List.dropWhile_cons, if_neg (by simp [hcn])] at hp1
        exact List.noConfusion hp1
      subst hc
      constructor
      · simp [scanChunk]
      · simp only [scanChunk, hp1]
        rfl
    | cons c1 cs1 =>
      exfalso
      have hc1 : c1 ≠ '*' := by
        have := dropWhile_head_not (c :: cs) hp1
        simpa using this
      have := scanBody_chunk_ne cs1 hc1
      simp only [scanChunk, hp1] at h
      exact this h

/-- Validation of an empty pattern tail always succeeds. -/
theorem validateRest_nil (f : Nat) : validateRest f [] = .ok () := by
  cases f <;> rfl

/-- validateRest is insensitive to fuel above the pattern length. -/
theorem validateRest_fuel_irrel : ∀ (f g : Nat) (p : Str), p.length < f → p.length < g →
    validateRest f p = validateRest g p := by
  intro f
  induction f with
  | zero => intro g p hf; exact absurd hf (Nat.not_lt_zero _)
  | succ f ih =>
    intro g p hf hg
    cases g with
    | zero => exact absurd hg (Nat.not_lt_zero _)
    | succ g =>
      by_cases hp : p = []
      · subst hp; rfl
      · simp only [validateRest, if_neg hp]
        split
        · rfl
        · have hlt := scanChunk_rest_lt p hp
          exact ih g _ (by omega) (by omega)

/-- One unfolding of validateRest: an error in the first chunk or in the
validation of the rest yields an error for the whole pattern. -/
theorem validateRest_error_step (p : Str) (hp : p ≠ [])
    (h : matchChunk (scanChunk p).2.1 [] = .error () ∨
      validateRest ((scanChunk p).2.2.length + 1) (scanChunk p).2.2 = .error ()) :
    validateRest (p.length + 1) p = .error () := by
  simp only [validateRest, if_neg hp]
  rcases h with h | h
  · rw [h]
  · cases hmc : matchChunk (scanChunk p).2.1 [] with
    | error e => rfl
    | ok r =>
      have hlt := scanChunk_rest_lt p hp
      rw [validateRest_fuel_irrel p.length ((scanChunk p).2.2.length + 1) _ (by omega) (by omega)]
      exact h

/-- matchChunk's error outcome is name-independent. -/
theorem matchChunk_error_indep {c s : Str} (s' : Str) (h : matchChunk c s = .error ()) :
    matchChunk c s' = .error () := by
  unfold matchChunk at h ⊢
  exact matchChunkF_error_indep _ _ _ _ _ _ h

/-- A failing failValidate comes from a failing validation of the rest. -/
theorem failValidate_error {rest : Str} (h : failValidate rest = .error ()) :
    validateRest (rest.length + 1) rest = .error () := by
  unfold failValidate at h
  split at h
  · next e heq => exact heq
  · exact absurd h (by simp)

/-- An error raised inside the star-backtracking loop is a chunk error. -/
theorem starLoopGo_error (chunk rest : Str) : ∀ nm : Str,
    starLoopGo chunk rest nm = .error () → matchChunk chunk [] = .error () := by
  intro nm
  induction nm with
  | nil => intro h; simp [starLoopGo] at h
  | cons c cs ih =>
    intro h
    simp only [starLoopGo] at h
    split at h
    · exact absurd h (by simp)
    · split at h
      · next heq => exact matchChunk_error_indep [] heq
      · next t heq =>
        split at h
        · exact ih h
        · exact absurd h (by simp)
      · exact ih h

/-- If Match reports ErrBadPattern for some name, the pattern itself is
syntactically bad: its chunk validation fails. -/
theorem goMatchF_error_bad : ∀ (f : Nat) (p nm : Str), goMatchF f p nm = .error () →
    validateRest (p.length + 1) p = .error () := by
  intro f
  induction f with
  | zero => intro p nm h; exact absurd h (by simp [goMatchF])
  | succ f ih =>
    intro p nm h
    by_cases hp : p = []
    · subst hp; exact absurd h (by simp [goMatchF])
    · simp only [goMatchF, if_neg hp] at h
      split at h
      · exact absurd h (by simp)
      · split at h
        · next e heq =>
          exact validateRest_error_step p hp (Or.inl (matchChunk_error_indep [] heq))
        · next t heq =>
          split at h
          · exact validateRest_error_step p hp (Or.inr (ih _ _ h))
          · split at h
            · split at h
              · next heq2 =>
                exact validateRest_error_step p hp (Or.inl (starLoopGo_error _ _ _ heq2))
              · next t' heq2 =>
                exact validateRest_error_step p hp (Or.inr (ih _ _ h))
              · exact validateRest_error_step p hp (Or.inr (failValidate_error h))
            · exact validateRest_error_step p hp (Or.inr (failValidate_error h))
        · next heq =>
          split at h
          · split at h
            · next heq2 =>
              exact validateRest_error_step p hp (Or.inl (starLoopGo_error _ _ _ heq2))
            · next t' heq2 =>
              exact validateRest_error_step p hp (Or.inr (ih _ _ h))
            · exact validateRest_error_step p hp (Or.inr (failValidate_error h))
          · exact validateRest_error_step p hp (Or.inr (failValidate_error h))

/-- A pattern that errors against some name also errors against the empty
string: nothing about malformedness is only discovered at walk time. -/
theorem goMatch_error_empty (p nm : Str) (h : goMatch p nm = .error ()) :
    goMatch p [] = .error () := by
  have hval : validateRest (p.length + 1) p = .error () := goMatchF_error_bad _ _ _ h
  have hp : p ≠ [] := by
    intro he
    subst he
    rw [validateRest_nil] at hval
    exact absurd hval (by simp)
  have hchunk : (scanChunk p).2.1 ≠ [] := by
    intro hc
    obtain ⟨hstar, hrest⟩ := scanChunk_chunk_nil p hp hc
    have hok : validateRest (p.length + 1) p = .ok () := by
      simp only [validateRest, if_neg hp, hc]
      rw [show matchChunk [] [] = .ok (some []) from rfl]
      rw [hrest, validateRest_nil]
    rw [hok] at hval
    exact absurd hval (by simp)
  show goMatchF (p.length + 1) p [] = .error ()
  simp only [goMatchF, if_neg hp]
  rw [if_neg (fun hand => hchunk hand.2)]
  split
  · rfl
  · next t heq =>
    rcases matchChunk_empty_name _ hchunk with hmc | hmc <;>
      (rw [heq] at hmc; exact absurd hmc (by simp))
  · next heq =>
    have hre : validateRest ((scanChunk p).2.2.length + 1) (scanChunk p).2.2 = .error () := by
      simp only [validateRest, if_neg hp, heq] at hval
      have hlt := scanChunk_rest_lt p hp
      rw [validateRest_fuel_irrel ((scanChunk p).2.2.length + 1) p.length _ (by omega) (by omega)]
      exact hval
    have hfv : failValidate (scanChunk p).2.2 = .error () := by
      unfold failValidate
      rw [hre]
    have hsl : starLoopGo (scanChunk p).2.1 (scanChunk p).2.2 [] = .ok none := rfl
    split
    · split
      · next heq2 => exact absurd (hsl.symm.trans heq2) (by simp)
      · next t2 heq2 => exact absurd (hsl.symm.trans heq2) (by simp)
      · exact hfv
    · exact hfv

/-- C6: every malformed glob pattern -- one on which Match would report
ErrBadPattern for some name during walking -- is rejected at registration
time, where the pattern is validated once against the empty string; so no
malformed-pattern error is ever deferred to walk time, and registration
fails before any discovery begins. -/
theorem c6_malformed_rejected (globs : List Str) (p nm : Str)
    (h : goMatch p nm = .error ()) :
    registerGlob globs p = .error () := by
  unfold registerGlob
  rw [goMatch_error_empty p nm h]

/-- Witness for C6 at the unbalanced-bracket pattern of the claim. -/
theorem c6_witness :
    goMatch (strL "[") (strL "x") = .error () ∧
      registerGlob defaultGlobs (strL "[") = .error () :=
  ⟨by rfl, c6_malformed_rejected defaultGlobs (strL "[") (strL "x") (by rfl)⟩

/- Walker lemmas: the search walk is the plain walk filtered and mapped. -/

/-- The searching walk equals the enumerating walk followed by filtering
with the pattern set and building records. -/
theorem walkSearch_eq : ∀ (t : Fs) (d : Str) (globs : List Str) (pre : Str),
    walkSearch d globs pre t =
      match walkFilesAux pre t with
      | .error e => .error e
      | .ok rels => .ok ((rels.filter (matchesAny globs)).map (mkRecord d)) := by
  intro t
  induction t with
  | nil => intro d globs pre; rfl
  | file nm sib ih =>
    intro d globs pre
    simp only [walkSearch, walkFilesAux, ih]
    cases hws : walkFilesAux pre sib with
    | error e => rfl
    | ok rels =>
      simp only [List.filter_cons]
      by_cases hm : matchesAny globs (relPath pre nm) <;> simp [hm]
  | dir nm readOk sub sib ihsub ihsib =>
    intro d globs pre
    simp only [walkSearch, walkFilesAux, ihsub, ihsib]
    cases hro : readOk with
    | false => rfl
    | true =>
      simp only [if_true]
      cases hsub : walkFilesAux (relPath pre nm) sub with
      | error e => rfl
      | ok s =>
        cases hsib : walkFilesAux pre sib with
        | error e => rfl
        | ok r => simp [List.filter_append]

/-- Record building is injective in the relative path for a fixed dir. -/
theorem mkRecord_inj (d : Str) : Function.Injective (mkRecord d) := by
  intro r1 r2 h
  have hp : goJoin d r1 = goJoin d r2 := congrArg fileRecord.path h
  unfold goJoin at hp
  split at hp
  · exact hp
  · have := List.append_cancel_left hp
    exact List.cons.inj this |>.2

/-- countOcc of an injective image. -/
theorem countOcc_map_inj {α β : Type} [DecidableEq α] [DecidableEq β]
    {f : α → β} (hf : Function.Injective f) (a : α) (l : List α) :
    countOcc (f a) (l.map f) = countOcc a l := by
  induction l with
  | nil => rfl
  | cons x xs ih =>
    simp only [List.map_cons, countOcc, ih]
    by_cases hx : x = a
    · rw [if_pos hx, if_pos (congrArg f hx)]
    · rw [if_neg hx, if_neg (fun he => hx (hf he))]

/-- countOcc through a filter. -/
theorem countOcc_filter {α : Type} [DecidableEq α] (p : α → Bool) (a : α) (l : List α) :
    countOcc a (l.filter p) = if p a then countOcc a l else 0 := by
  induction l with
  | nil => simp [countOcc]
  | cons x xs ih =>
    rw [List.filter_cons]
    by_cases hx : x = a
    · subst hx
      by_cases hp : p x
      · simp [hp, countOcc, ih]
      · simp [hp, countOcc, ih, Bool.not_eq_true] at ih ⊢
    · by_cases hp : p x
      · simp [hp, countOcc, hx, ih]
      · simp [hp, countOcc, hx, ih]

/-- A zero count means absence. -/
theorem countOcc_eq_zero {α : Type} [DecidableEq α] {a : α} {l : List α}
    (h : countOcc a l = 0) : a ∉ l := by
  induction l with
  | nil => simp
  | cons x xs ih =>
    simp only [countOcc] at h
    by_cases hx : x = a
    · rw [if_pos hx] at h; omega
    · rw [if_neg hx] at h
      simp only [Nat.zero_add] at h
      intro hmem
      rcases List.mem_cons.mp hmem with hh | hh
      · exact hx hh.symm
      · exact ih h hh

/-- Characterization of a successful discovery: the record list is exactly
the matching files of the walk, mapped through record building, and the
record multiplicity of every path is its file multiplicity if it matches
and zero otherwise. -/
theorem searchRecords_spec (d : Str) (fsys : DirFS) (globs : List Str)
    (recs : List fileRecord)
    (h : searchRecords d fsys globs = .ok recs) :
    ∃ rels, walkFiles fsys = .ok rels ∧
      recs = (rels.filter (matchesAny globs)).map (mkRecord d) ∧
      ∀ rel : Str, countOcc (mkRecord d rel) recs =
        if matchesAny globs rel then countOcc rel rels else 0 := by
  unfold searchRecords at h
  cases hro : fsys.rootOk with
  | false => rw [hro] at h; exact absurd h (by simp)
  | true =>
    rw [hro] at h
    rw [if_pos rfl] at h
    rw [walkSearch_eq] at h
    cases hwf : walkFilesAux [] fsys.entries with
    | error e => rw [hwf] at h; exact absurd h (by simp)
    | ok rels =>
      rw [hwf] at h
      have h2 : (if ((rels.filter (matchesAny globs)).map (mkRecord d)) = []
          then (Except.error (Err.base BaseErr.noFilesFound) : Except Err (List fileRecord))
          else .ok ((rels.filter (matchesAny globs)).map (mkRecord d))) = .ok recs := h
      split at h2
      · exact absurd h2 (by simp)
      · refine ⟨rels, by simp [walkFiles, hro, hwf], (Except.ok.inj h2).symm, ?_⟩
        intro rel
        have hrecs : recs = (rels.filter (matchesAny globs)).map (mkRecord d) :=
          (Except.ok.inj h2).symm
        subst hrecs
        rw [countOcc_map_inj (mkRecord_inj d), countOcc_filter]

/-- C2: for every pattern set and file tree, a successful discovery holds
exactly one record for each walked regular file whose relative path
matches at least one pattern (even if several match, the first-match loop
appends once), no record for any non-matching file, and no record for
directory entries: the result is precisely the matching file paths of the
walk mapped through record construction, and the record multiplicity of a
path equals its file multiplicity when it matches and zero otherwise. -/
theorem c2_discovery_exact (d : Str) (fsys : DirFS) (globs : List Str)
    (recs : List fileRecord)
    (h : searchRecords d fsys globs = .ok recs) :
    ∃ rels, walkFiles fsys = .ok rels ∧
      recs = (rels.filter (matchesAny globs)).map (mkRecord d) ∧
      ∀ rel : Str, countOcc (mkRecord d rel) recs =
        if matchesAny globs rel then countOcc rel rels else 0 :=
  searchRecords_spec d fsys globs recs h

/-- Witness for C2 on a concrete tree with a matching, a non-matching and
a subdirectory file. -/
theorem c2_witness :
    ∃ rels, walkFiles wFsys1 = .ok rels ∧
      wRecs1 = (rels.filter (matchesAny defaultGlobs)).map (mkRecord (strL "book1")) ∧
      ∀ rel : Str, countOcc (mkRecord (strL "book1") rel) wRecs1 =
        if matchesAny defaultGlobs rel then countOcc rel rels else 0 :=
  c2_discovery_exact (strL "book1") wFsys1 defaultGlobs wRecs1 (by rfl)

/-- C7: a directory whose walk completes with zero matching files yields
the distinguished no-files-found error, and a successful search result is
never the empty collection. -/
theorem c7_no_files_found (d : Str) (fsys : DirFS) (globs : List Str) :
    (∀ rels, walkFiles fsys = .ok rels →
      (∀ rel ∈ rels, matchesAny globs rel = false) →
      searchRecords d fsys globs = .error (.base .noFilesFound)) ∧
    (∀ recs, searchRecords d fsys globs = .ok recs → recs ≠ []) := by
  constructor
  · intro rels hwf hnone
    have hro : fsys.rootOk = true := by
      unfold walkFiles at hwf
      by_contra hro
      rw [if_neg hro] at hwf
      exact absurd hwf (by simp)
    have hwfa : walkFilesAux [] fsys.entries = .ok rels := by
      unfold walkFiles at hwf
      rw [if_pos hro] at hwf
      exact hwf
    have hfil : rels.filter (matchesAny globs) = [] :=
      List.filter_eq_nil_iff.mpr (by intro a ha; simp [hnone a ha])
    unfold searchRecords
    rw [hro, if_pos rfl, walkSearch_eq, hwfa]
    simp [hfil]
  · intro recs h hnil
    subst hnil
    unfold searchRecords at h
    cases hro : fsys.rootOk with
    | false => rw [hro] at h; exact absurd h (by simp)
    | true =>
      rw [hro, if_pos rfl, walkSearch_eq] at h
      cases hwf : walkFilesAux [] fsys.entries with
      | error e => rw [hwf] at h; exact absurd h (by simp)
      | ok rels =>
        rw [hwf] at h
        have h2 : (if ((rels.filter (matchesAny globs)).map (mkRecord d)) = []
            then (Except.error (Err.base BaseErr.noFilesFound) : Except Err (List fileRecord))
            else .ok ((rels.filter (matchesAny globs)).map (mkRecord d))) = .ok [] := h
        split at h2
        · exact absurd h2 (by simp)
        · next hne => exact hne (Except.ok.inj h2)

/-- Witness for C7: a tree with one non-matching file produces the
no-files-found error, and a successful search result is nonempty. -/
theorem c7_witness :
    searchRecords (strL "b") wFsys2 defaultGlobs = .error (.base .noFilesFound) ∧
      wRecs1 ≠ [] :=
  ⟨(c7_no_files_found (strL "b") wFsys2 defaultGlobs).1 [strL "a.txt"] (by rfl) (by decide),
   (c7_no_files_found (strL "book1") wFsys1 defaultGlobs).2 wRecs1 (by rfl)⟩

/- The default pattern and separators. -/

/-- With the failed flag set, a chunk of literal characters always reports
a plain non-match. -/
theorem matchChunkF_lit_true : ∀ (f : Nat) (c s : Str), c.all isLitChar = true →
    c.length < f → matchChunkF f true c s = .ok none := by
  intro f
  induction f with
  | zero => intro c s hc hf; exact absurd hf (Nat.not_lt_zero _)
  | succ f ih =>
    intro c s hc hf
    cases c with
    | nil => rfl
    | cons c0 cs =>
      rw [List.all_cons, Bool.and_eq_true] at hc
      have hc0 : isLitChar c0 = true := hc.1
      have hcs : cs.all isLitChar = true := hc.2
      have hnb1 : ¬c0 = '[' := fun he => absurd (he ▸ hc0) (by decide)
      have hnb2 : ¬c0 = '?' := fun he => absurd (he ▸ hc0) (by decide)
      have hnb3 : ¬c0 = '\\' := fun he => absurd (he ▸ hc0) (by decide)
      simp only [matchChunkF, Bool.true_or, if_neg hnb1, if_neg hnb2, if_neg hnb3, if_true]
      have hlen : cs.length < f := by simp at hf; omega
      exact ih cs s hcs hlen

/-- A chunk of literal characters matches a name exactly when it is a
prefix of the name, leaving the rest of the name. -/
theorem matchChunkF_lit : ∀ (f : Nat) (c s : Str), c.all isLitChar = true →
    c.length < f →
    matchChunkF f false c s =
      if c.isPrefixOf s then .ok (some (s.drop c.length)) else .ok none := by
  intro f
  induction f with
  | zero => intro c s hc hf; exact absurd hf (Nat.not_lt_zero _)
  | succ f ih =>
    intro c s hc hf
    cases c with
    | nil => simp [matchChunkF, List.isPrefixOf]
    | cons c0 cs =>
      rw [List.all_cons, Bool.and_eq_true] at hc
      have hc0 : isLitChar c0 = true := hc.1
      have hcs : cs.all isLitChar = true := hc.2
      have hnb1 : ¬c0 = '[' := fun he => absurd (he ▸ hc0) (by decide)
      have hnb2 : ¬c0 = '?' := fun he => absurd (he ▸ hc0) (by decide)
      have hnb3 : ¬c0 = '\\' := fun he => absurd (he ▸ hc0) (by decide)
      have hlen : cs.length < f := by simp at hf; omega
      cases s with
      | nil =>
        simp only [matchChunkF, List.isEmpty_nil, Bool.or_true,
          if_neg hnb1, if_neg hnb2, if_neg hnb3, if_true]
        rw [show ((c0 :: cs).isPrefixOf ([] : Str)) = false from rfl]
        rw [if_neg (by simp)]
        exact matchChunkF_lit_true f cs _ hcs hlen
      | cons a as =>
        simp only [matchChunkF, List.isEmpty_cons, Bool.or_false,
          if_neg hnb1, if_neg hnb2, if_neg hnb3]
        by_cases ha : a = c0
        · subst ha
          simp only [bne_self_eq_false]
          rw [if_neg (show ¬((false : Bool) = true) by simp)]
          dsimp only
          rw [ih cs as hcs hlen]
          rw [show ((a :: cs).isPrefixOf (a :: as)) = cs.isPrefixOf as from by
            simp [List.isPrefixOf_cons₂]]
          rw [show (a :: as).drop (a :: cs).length = as.drop cs.length from rfl]
        · rw [show ((a != c0) : Bool) = true from by simp [bne_iff_ne, ha]]
          rw [if_neg (show ¬((false : Bool) = true) by simp)]
          dsimp only
          rw [matchChunkF_lit_true f cs as hcs hlen]
          rw [show ((c0 :: cs).isPrefixOf (a :: as)) = false from by
            simp [List.isPrefixOf_cons₂]
            intro he
            exact absurd he.symm ha]
          rw [if_neg (by simp)]

/-- matchChunk for a literal chunk. -/
theorem matchChunk_lit (c s : Str) (hc : c.all isLitChar = true) :
    matchChunk c s =
      if c.isPrefixOf s then .ok (some (s.drop c.length)) else .ok none :=
  matchChunkF_lit (c.length + 1) c s hc (by omega)

/-- The star loop of the default pattern never succeeds on a name that
contains a separator: backtracking stops at the separator, and every
suffix tried before that still contains the separator. -/
theorem starLoopGo_mp3 : ∀ (nm : Str), nm.contains '/' = true →
    starLoopGo (strL ".mp3") [] nm = .ok none := by
  intro nm
  induction nm with
  | nil => intro h; simp [List.contains] at h
  | cons c cs ih =>
    intro h
    simp only [starLoopGo]
    by_cases hcsl : c = '/'
    · rw [if_pos hcsl]
    · rw [if_neg hcsl]
      have hcs : cs.contains '/' = true := by
        rw [List.contains_cons] at h
        simp only [Bool.or_eq_true] at h
        rcases h with hh | hh
        · exact absurd (show ('/' : Char) = c by simpa using hh).symm hcsl
        · exact hh
      rw [matchChunk_lit _ _ (by decide)]
      by_cases hpre : (strL ".mp3").isPrefixOf cs
      · rw [if_pos hpre]
        obtain ⟨t, ht⟩ := List.isPrefixOf_iff_prefix.mp hpre
        have hdrop : cs.drop (strL ".mp3").length = t := by
          rw [← ht]; exact List.drop_left _ _
        have htne : t ≠ [] := by
          have hmem : ('/' : Char) ∈ cs := List.mem_of_elem_eq_true hcs
          rw [← ht] at hmem
          rcases List.mem_append.mp hmem with hm | hm
          · exact absurd hm (by decide)
          · exact List.ne_nil_of_mem hm
        rw [hdrop]
        show (if True ∧ t ≠ [] then starLoopGo (strL ".mp3") [] cs
          else .ok (some t)) = .ok none
        rw [if_pos ⟨trivial, htne⟩]
        exact ih hcs
      · rw [if_neg hpre]
        exact ih hcs

/-- The default pattern star.mp3 rejects every name containing the path
separator: its single literal chunk is anchored at the end of the name,
and the star cannot skip across a separator. -/
theorem mp3_slash_no_match (nm : Str) (h : nm.contains '/' = true) :
    goMatch (strL "*.mp3") nm = .ok false := by
  show goMatchF ((strL "*.mp3").length + 1) (strL "*.mp3") nm = .ok false
  simp only [goMatchF]
  rw [if_neg (show ¬(strL "*.mp3") = [] by decide)]
  rw [show scanChunk (strL "*.mp3") = (true, strL ".mp3", []) from rfl]
  dsimp only
  rw [if_neg (show ¬(true = true ∧ strL ".mp3" = []) by decide)]
  rw [matchChunk_lit _ _ (by decide)]
  by_cases hpre : (strL ".mp3").isPrefixOf nm
  · rw [if_pos hpre]
    obtain ⟨t, ht⟩ := List.isPrefixOf_iff_prefix.mp hpre
    have hdrop : nm.drop (strL ".mp3").length = t := by
      rw [← ht]; exact List.drop_left _ _
    have htne : t ≠ [] := by
      have hmem : ('/' : Char) ∈ nm := List.mem_of_elem_eq_true h
      rw [← ht] at hmem
      rcases List.mem_append.mp hmem with hm | hm
      · exact absurd hm (by decide)
      · exact List.ne_nil_of_mem hm
    rw [hdrop]
    show (if t = [] ∨ ([] : Str) ≠ [] then goMatchF (strL "*.mp3").length [] t
      else if (true : Bool) = true then
        match starLoopGo (strL ".mp3") [] nm with
        | .error e => .error e
        | .ok (some t') => goMatchF (strL "*.mp3").length [] t'
        | .ok none => failValidate []
      else failValidate []) = .ok false
    rw [if_neg (by simp [htne])]
    rw [if_pos rfl]
    rw [starLoopGo_mp3 nm h]
    rfl
  · rw [if_neg hpre]
    show (if (true : Bool) = true then
        match starLoopGo (strL ".mp3") [] nm with
        | .error e => .error e
        | .ok (some t') => goMatchF (strL "*.mp3").length [] t'
        | .ok none => failValidate []
      else failValidate []) = .ok false
    rw [if_pos rfl]
    rw [starLoopGo_mp3 nm h]
    rfl

/- Sorter lemmas. -/

/-- A non-positive comparison puts the first record not after the second. -/
theorem natOrdered_of_cmp_le {a b : fileRecord} {c : Int}
    (hc : cmpRec a b = some c) (hle : c ≤ 0) : natOrdered a b := by
  unfold cmpRec at hc
  by_cases hab : a = b
  · exact Or.inl hab
  · rw [if_neg hab] at hc
    cases hnl : naturalLess a.name b.name with
    | none => rw [hnl] at hc; exact absurd hc (by simp)
    | some less =>
      rw [hnl] at hc
      cases less with
      | true => exact Or.inr (Or.inl hnl)
      | false =>
        exfalso
        simp at hc
        omega

/-- A positive comparison puts the second record not after the first. -/
theorem natOrdered_of_cmp_pos {a b : fileRecord} {c : Int}
    (hc : cmpRec a b = some c) (hpos : ¬c ≤ 0) : natOrdered b a := by
  unfold cmpRec at hc
  by_cases hab : a = b
  · rw [if_pos hab] at hc
    exfalso
    have : (0 : Int) = c := by simpa using hc
    omega
  · rw [if_neg hab] at hc
    cases hnl : naturalLess a.name b.name with
    | none => rw [hnl] at hc; exact absurd hc (by simp)
    | some less =>
      rw [hnl] at hc
      cases less with
      | true =>
        exfalso
        simp at hc
        omega
      | false => exact Or.inr (Or.inr hnl)

/-- Stable insertion permutes: the result is the element plus the list. -/
theorem orderedInsertRec_perm : ∀ (a : fileRecord) (l l' : List fileRecord),
    orderedInsertRec a l = some l' → l'.Perm (a :: l) := by
  intro a l
  induction l with
  | nil =>
    intro l' h
    simp only [orderedInsertRec] at h
    obtain rfl := Option.some.inj h
    exact List.Perm.refl _
  | cons b bs ih =>
    intro l' h
    simp only [orderedInsertRec] at h
    split at h
    · exact absurd h (by simp)
    · next c heq =>
      by_cases hle : c ≤ 0
      · rw [if_pos hle] at h
        obtain rfl := Option.some.inj h
        exact List.Perm.refl _
      · rw [if_neg hle] at h
        cases hins : orderedInsertRec a bs with
        | none => rw [hins] at h; exact absurd h (by simp)
        | some t =>
          rw [hins] at h
          have hbt : b :: t = l' := by simpa using h
          subst hbt
          exact ((ih t hins).cons b).trans (List.Perm.swap a b bs)

/-- Stable insertion preserves adjacent comparator order, and the new head
is the inserted element or the old head. -/
theorem orderedInsertRec_chain : ∀ (a : fileRecord) (l l' : List fileRecord),
    List.Chain' natOrdered l → orderedInsertRec a l = some l' →
    List.Chain' natOrdered l' ∧ (l'.head? = some a ∨ l'.head? = l.head?) := by
  intro a l
  induction l with
  | nil =>
    intro l' hch h
    simp only [orderedInsertRec] at h
    obtain rfl := Option.some.inj h
    exact ⟨List.chain'_singleton a, Or.inl rfl⟩
  | cons b bs ih =>
    intro l' hch h
    simp only [orderedInsertRec] at h
    split at h
    · exact absurd h (by simp)
    · next c heq =>
      by_cases hle : c ≤ 0
      · rw [if_pos hle] at h
        obtain rfl := Option.some.inj h
        exact ⟨List.Chain'.cons (natOrdered_of_cmp_le heq hle) hch, Or.inl rfl⟩
      · rw [if_neg hle] at h
        cases hins : orderedInsertRec a bs with
        | none => rw [hins] at h; exact absurd h (by simp)
        | some t =>
          rw [hins] at h
          have hbt : b :: t = l' := by simpa using h
          subst hbt
          have hchbs : List.Chain' natOrdered bs := (List.chain'_cons'.mp hch).2
          obtain ⟨hcht, hhead⟩ := ih t hchbs hins
          refine ⟨?_, Or.inr rfl⟩
          rw [List.chain'_cons']
          refine ⟨?_, hcht⟩
          intro h2 hh2
          have hh2' : t.head? = some h2 := hh2
          rcases hhead with hh | hh
          · rw [hh2'] at hh
            obtain rfl := Option.some.inj hh
            exact natOrdered_of_cmp_pos heq hle
          · rw [hh2'] at hh
            exact (List.chain'_cons'.mp hch).1 h2 hh.symm

/-- The sorter permutes its input. -/
theorem sortFileRecords_perm : ∀ (l l' : List fileRecord),
    sortFileRecords l = some l' → l'.Perm l := by
  intro l
  induction l with
  | nil =>
    intro l' h
    simp only [sortFileRecords] at h
    obtain rfl := Option.some.inj h
    exact List.Perm.refl _
  | cons a as ih =>
    intro l' h
    simp only [sortFileRecords] at h
    cases hs : sortFileRecords as with
    | none => rw [hs] at h; exact absurd h (by simp)
    | some t =>
      rw [hs] at h
      exact (orderedInsertRec_perm a t l' h).trans ((ih t hs).cons a)

/-- The sorter's output is in adjacent comparator order. -/
theorem sortFileRecords_chain : ∀ (l l' : List fileRecord),
    sortFileRecords l = some l' → List.Chain' natOrdered l' := by
  intro l
  induction l with
  | nil =>
    intro l' h
    simp only [sortFileRecords] at h
    obtain rfl := Option.some.inj h
    exact List.chain'_nil
  | cons a as ih =>
    intro l' h
    simp only [sortFileRecords] at h
    cases hs : sortFileRecords as with
    | none => rw [hs] at h; exact absurd h (by simp)
    | some t =>
      rw [hs] at h
      exact (orderedInsertRec_chain a t l' (ih t hs) h).1

/-- A record loop that finished without error wrote every record. -/
theorem writeOne_ok {env : FsEnv} {r : fileRecord} {es : List fileRecord}
    (h : writeOne env r = (es, none)) : es = [r] := by
  unfold writeOne at h
  split at h
  · exact absurd (congrArg Prod.snd h) (by simp)
  · split at h
    · exact absurd (congrArg Prod.snd h) (by simp)
    · exact (Prod.mk.inj h).1.symm

theorem writeRecords_ok (env : FsEnv) : ∀ (l es : List fileRecord),
    writeRecords env l = (es, none) → es = l := by
  intro l
  induction l with
  | nil =>
    intro es h
    exact (Prod.mk.inj h).1.symm
  | cons r rs ih =>
    intro es h
    simp only [writeRecords] at h
    split at h
    · next es1 e heq => exact absurd (congrArg Prod.snd h) (by simp)
    · next es1 heq =>
      have h2 : es1 ++ (writeRecords env rs).1 = es := (Prod.mk.inj h).1
      have h3 : (writeRecords env rs).2 = none := (Prod.mk.inj h).2
      have hrs : writeRecords env rs = ((writeRecords env rs).1, none) := by
        rw [← h3]
      have := ih (writeRecords env rs).1 hrs
      rw [← h2, writeOne_ok heq, this]
      rfl

/-- C1: in a session that completes without error, the archive entry list
is the concatenation, in directory-argument order, of one block per
directory; each block is what sorting that directory's discovery result
produced: a permutation of the found records in adjacent natural order of
entry name under the comparator.  All entries of an earlier directory
argument therefore precede all entries of a later one, regardless of how
their names compare. -/
theorem c1_entries_ordered (env : FsEnv) (globs : List Str)
    (dirs : List (Str × DirFS)) (entries : List fileRecord)
    (h : process env globs dirs = some (entries, none)) :
    ∃ blocks : List (List fileRecord), entries = blocks.flatten ∧
      List.Forall₂ (fun (dfs : Str × DirFS) block =>
        ∃ found, searchRecords dfs.1 dfs.2 globs = .ok found ∧
          sortFileRecords found = some block ∧
          block.Perm found ∧ List.Chain' natOrdered block) dirs blocks := by
  induction dirs generalizing entries with
  | nil =>
    simp only [process] at h
    have he : ([] : List fileRecord) = entries := congrArg Prod.fst (Option.some.inj h)
    subst he
    exact ⟨[], rfl, List.Forall₂.nil⟩
  | cons d rest ih =>
    simp only [process] at h
    cases hpd : processDir env d.1 d.2 globs with
    | none => rw [hpd] at h; exact absurd h (by simp)
    | some pr =>
      obtain ⟨es, err⟩ := pr
      rw [hpd] at h
      cases err with
      | some e => exact absurd (congrArg Prod.snd (Option.some.inj h)) (by simp)
      | none =>
        cases hrest : process env globs rest with
        | none => rw [hrest] at h; exact absurd h (by simp)
        | some pr2 =>
          obtain ⟨more, err2⟩ := pr2
          rw [hrest] at h
          have h1 : es ++ more = entries := congrArg Prod.fst (Option.some.inj h)
          have h2 : err2 = none := congrArg Prod.snd (Option.some.inj h)
          subst h2
          obtain ⟨blocks, hbl, hfa⟩ := ih more hrest
          unfold processDir at hpd
          split at hpd
          · exact absurd (congrArg Prod.snd (Option.some.inj hpd)) (by simp)
          · next found hsr =>
            split at hpd
            · exact absurd hpd (by simp)
            · next sorted hsort =>
              have hw : writeRecords env sorted = (es, none) := Option.some.inj hpd
              have hes : es = sorted := writeRecords_ok env sorted es hw
              subst hes
              refine ⟨es :: blocks, ?_, ?_⟩
              · rw [← h1, hbl]
                rfl
              · exact List.Forall₂.cons
                  ⟨found, hsr, hsort, sortFileRecords_perm _ _ hsort,
                    sortFileRecords_chain _ _ hsort⟩ hfa

/-- Witness for C1 on two directories whose file names are discovered out
of natural order. -/
theorem c1_witness :
    ∃ blocks : List (List fileRecord), wEntries = blocks.flatten ∧
      List.Forall₂ (fun (dfs : Str × DirFS) block =>
        ∃ found, searchRecords dfs.1 dfs.2 defaultGlobs = .ok found ∧
          sortFileRecords found = some block ∧
          block.Perm found ∧ List.Chain' natOrdered block) wDirs blocks :=
  c1_entries_ordered wEnv defaultGlobs wDirs wEntries (by rfl)

/- Pipeline failure lemmas. -/

/-- The record loop stops at the first failing record: everything before
it is written, the failing record contributes its partial entries and its
wrapped error, and the records after it are never processed. -/
theorem writeRecords_first_fail (env : FsEnv) : ∀ (rs1 es1 : List fileRecord)
    (r : fileRecord) (esr : List fileRecord) (e : Err) (rs2 : List fileRecord),
    writeRecords env rs1 = (es1, none) → writeOne env r = (esr, some e) →
    writeRecords env (rs1 ++ r :: rs2) = (es1 ++ esr, some e) := by
  intro rs1
  induction rs1 with
  | nil =>
    intro es1 r esr e rs2 h1 h2
    have he : ([] : List fileRecord) = es1 := (Prod.mk.inj h1).1
    subst he
    simp only [List.nil_append, writeRecords, h2]
  | cons r0 rs0 ih =>
    intro es1 r esr e rs2 h1 h2
    simp only [writeRecords] at h1
    simp only [List.cons_append, writeRecords, List.append_eq]
    split at h1
    · exact absurd (congrArg Prod.snd h1) (by simp)
    · next es0 heq0 =>
      have hw0 : (writeRecords env rs0).2 = none := (Prod.mk.inj h1).2
      have hrs0 : writeRecords env rs0 = ((writeRecords env rs0).1, none) := by
        rw [← hw0]
      have hrec := ih (writeRecords env rs0).1 r esr e rs2 hrs0 h2
      rw [hrec]
      have hes : es0 ++ (writeRecords env rs0).1 = es1 := (Prod.mk.inj h1).1
      rw [← List.append_assoc, hes]

/-- The directory loop stops at the first failing directory: the session
holds the entries of the earlier directories plus what the failing one
wrote, the error is wrapped with that directory's name, and the later
directories are never processed. -/
theorem process_first_fail (env : FsEnv) (globs : List Str) :
    ∀ (pre : List (Str × DirFS)) (preE : List fileRecord) (d : Str × DirFS)
      (post : List (Str × DirFS)) (es : List fileRecord) (e : Err),
    process env globs pre = some (preE, none) →
    processDir env d.1 d.2 globs = some (es, some e) →
    process env globs (pre ++ d :: post) =
      some (preE ++ es, some (.wrap (.dirCtx d.1) e)) := by
  intro pre
  induction pre with
  | nil =>
    intro preE d post es e h1 h2
    have he : ([] : List fileRecord) = preE := congrArg Prod.fst (Option.some.inj h1)
    subst he
    simp only [List.nil_append, process, h2]
  | cons d0 pre0 ih =>
    intro preE d post es e h1 h2
    simp only [process] at h1
    simp only [List.cons_append, process, List.append_eq]
    cases hpd0 : processDir env d0.1 d0.2 globs with
    | none => rw [hpd0] at h1; exact absurd h1 (by simp)
    | some pr0 =>
      obtain ⟨es0, err0⟩ := pr0
      rw [hpd0] at h1
      cases err0 with
      | some e0 => exact absurd (congrArg Prod.snd (Option.some.inj h1)) (by simp)
      | none =>
        cases hp0 : process env globs pre0 with
        | none => rw [hp0] at h1; exact absurd h1 (by simp)
        | some pr1 =>
          obtain ⟨more0, errR⟩ := pr1
          rw [hp0] at h1
          have hpe : es0 ++ more0 = preE := congrArg Prod.fst (Option.some.inj h1)
          have her : errR = none := congrArg Prod.snd (Option.some.inj h1)
          subst her
          have hrec := ih more0 d post es e hp0 h2
          rw [hrec]
          rw [← hpe, List.append_assoc]

/-- C8: every failure during the run is fatal to the whole session.  At
the first failing directory the session output is exactly the entries of
the directories before it plus the entries created before the failing
step, the error propagates wrapped with the directory context, and no
later directory contributes; within a directory, the record loop likewise
stops at the first failing record, wraps its error with the file context
built by copyFileTo or entry creation, and processes no later record. -/
theorem c8_first_error_fatal :
    (∀ (env : FsEnv) (globs : List Str) (pre : List (Str × DirFS))
        (preE : List fileRecord) (d : Str × DirFS) (post : List (Str × DirFS))
        (es : List fileRecord) (e : Err),
      process env globs pre = some (preE, none) →
      processDir env d.1 d.2 globs = some (es, some e) →
      process env globs (pre ++ d :: post) =
        some (preE ++ es, some (.wrap (.dirCtx d.1) e))) ∧
    (∀ (env : FsEnv) (rs1 es1 : List fileRecord) (r : fileRecord)
        (esr : List fileRecord) (e : Err) (rs2 : List fileRecord),
      writeRecords env rs1 = (es1, none) → writeOne env r = (esr, some e) →
      writeRecords env (rs1 ++ r :: rs2) = (es1 ++ esr, some e)) :=
  ⟨fun env globs => process_first_fail env globs,
   fun env => writeRecords_first_fail env⟩

/-- Witness for C8: a failing open in directory b aborts the session after
directory a's entries, wrapping the error chain, and directory c is never
reached; likewise for the record loop. -/
theorem c8_witness :
    process wEnvFail defaultGlobs (wPre ++ wDirB :: wPost) =
      some ([mkRecord (strL "a") (strL "x.mp3"), mkRecord (strL "b") (strL "t2.mp3")],
        some (.wrap (.dirCtx (strL "b")) wErrB)) ∧
    writeRecords wEnvFail
        ([mkRecord (strL "a") (strL "x.mp3")] ++
          mkRecord (strL "b") (strL "t2.mp3") :: [mkRecord (strL "c") (strL "z.mp3")]) =
      ([mkRecord (strL "a") (strL "x.mp3")] ++ [mkRecord (strL "b") (strL "t2.mp3")],
        some wErrB) :=
  ⟨c8_first_error_fatal.1 wEnvFail defaultGlobs wPre
      [mkRecord (strL "a") (strL "x.mp3")] wDirB wPost
      [mkRecord (strL "b") (strL "t2.mp3")] wErrB (by rfl) (by rfl),
   c8_first_error_fatal.2 wEnvFail [mkRecord (strL "a") (strL "x.mp3")]
      [mkRecord (strL "a") (strL "x.mp3")] (mkRecord (strL "b") (strL "t2.mp3"))
      [mkRecord (strL "b") (strL "t2.mp3")] wErrB [mkRecord (strL "c") (strL "z.mp3")]
      (by rfl) (by rfl)⟩

/-- C9: with the pattern set consisting only of the built-in default
star.mp3, every walked regular file whose path relative to the source
directory contains a separator is excluded from the discovery result,
because each pattern is matched against the entire relative path and the
star does not cross the separator. -/
theorem c9_default_excludes_subdirs :
    (∀ rel : Str, rel.contains '/' = true → matchesAny defaultGlobs rel = false) ∧
    (∀ (d : Str) (fsys : DirFS) (recs : List fileRecord) (rel : Str),
      searchRecords d fsys defaultGlobs = .ok recs → rel.contains '/' = true →
      mkRecord d rel ∉ recs) := by
  have hma : ∀ rel : Str, rel.contains '/' = true → matchesAny defaultGlobs rel = false := by
    intro rel h
    simp [matchesAny, defaultGlobs, mp3_slash_no_match rel h]
  refine ⟨hma, ?_⟩
  intro d fsys recs rel hsr hslash
  obtain ⟨rels, hwf, hrecs, hcount⟩ := searchRecords_spec d fsys defaultGlobs recs hsr
  have hc := hcount rel
  rw [hma rel hslash] at hc
  rw [if_neg (by simp)] at hc
  exact countOcc_eq_zero hc

/-- Witness for C9 at the subdirectory path of wFsys1. -/
theorem c9_witness :
    matchesAny defaultGlobs (strL "d/x.mp3") = false ∧
      mkRecord (strL "book1") (strL "d/x.mp3") ∉ wRecs1 :=
  ⟨c9_default_excludes_subdirs.1 (strL "d/x.mp3") (by rfl),
   c9_default_excludes_subdirs.2 (strL "book1") wFsys1 wRecs1 (strL "d/x.mp3")
     (by rfl) (by rfl)⟩
